import Mathlib

/-!
# Delay queue engine (package `delayqueue`)

A shallow embedding of `delayqueue/delay_queue.go`: the queue operations `Push` and `Pop`,
the bucket router `bucket` with its round-robin generator `generateBucketName`, the scanner
set-up `initTimers` and the scanner loop `tickHandler`.

The external store is a value of type `World`, threaded explicitly through every operation.
Go `int` and `int64` values are integers; the single arithmetic operation that can leave the
64-bit range (`time.Now().Unix() + job.TTR` in `Pop`) wraps explicitly.
-/

namespace DelayQueue

/-! ## Go runtime -/

/-- Value of a signed 64-bit Go integer after two's-complement wraparound. -/
def wrapInt64 (x : Int) : Int := (x + 2 ^ 63) % 2 ^ 64 - 2 ^ 63

/-- The two uses the package makes of `fmt.Sprintf` (Go standard library): a pattern applied to
one `int` operand (bucket keys) and to one `string` operand (ready-queue keys).  The development
is parametric in both. -/
structure Fmt where
  /-- Application `fmt.Sprintf(pattern, n)` with an `int` operand. -/
  int : String → Int → String
  /-- Application `fmt.Sprintf(pattern, s)` with a `string` operand. -/
  str : String → String → String

/-- Replace the first occurrence of `%` followed by `verb` in a pattern by `operand`. -/
def substVerb (verb : Char) (operand : List Char) : List Char → List Char
  | [] => []
  | [c] => [c]
  | c :: d :: rest =>
    if c = '%' ∧ d = verb then operand ++ rest else c :: substVerb verb operand (d :: rest)

/-- Decimal digits of a natural number, most significant first. -/
def decimalDigits : Nat → Nat → List Char
  | 0, _ => []
  | fuel + 1, n =>
    if n < 10 then [Char.ofNat (48 + n)]
    else decimalDigits fuel (n / 10) ++ [Char.ofNat (48 + n % 10)]

/-- Decimal rendering of an integer, as the verb `%d` prints it. -/
def decimal (n : Int) : List Char :=
  if n < 0 then '-' :: decimalDigits (n.natAbs + 1) n.natAbs else decimalDigits (n.natAbs + 1) n.natAbs

/-- A concrete formatter for patterns holding one plain `%d` (resp. `%s`) verb, such as the
default patterns `dq_bucket_%d` and `dq_queue_%s`; used to evaluate the model on examples. -/
def goFmt : Fmt where
  int := fun pattern n => String.mk (substVerb 'd' (decimal n) pattern.data)
  str := fun pattern s => String.mk (substVerb 's' s.data pattern.data)

/-! ## Configuration (`config/config.go`) -/

/-- The fields of `config.Config` the queue engine reads. -/
structure Config where
  BucketSize : Int
  BucketName : String
  BucketMethod : Int
  QueueName : String
  QueueBlockTimeout : Int

/-- The settings `initDefaultConfig` installs. -/
def defaultConfig : Config where
  BucketSize := 3
  BucketName := "dq_bucket_%d"
  BucketMethod := 0
  QueueName := "dq_queue_%s"
  QueueBlockTimeout := 178

/-! ## Data model -/

/-- Modelled from the spec: the declaration of `Job` (file `job.go`) is missing; the fields are
those of the data model, `Delay` and `TTR` being `int64` as their uses in `Push`, `Pop` and
`tickHandler` require. -/
structure Job where
  Id : String
  Topic : String
  Delay : Int
  TTR : Int
  Body : String
deriving DecidableEq

/-- Modelled from the spec: the serialized metadata `(topic, delay, ttr, body)` the job store
keeps under the key derived from the job id. -/
structure JobMeta where
  Topic : String
  Delay : Int
  TTR : Int
  Body : String
deriving DecidableEq

/-- Modelled from the spec: the declaration of `BucketItem` (file `bucket.go`) is missing; a bucket
entry is a pair of a delivery timestamp and a job id. -/
structure BucketItem where
  timestamp : Int
  jobId : String
deriving DecidableEq

/-- State of the external store and of the process-wide generator.

* `jobs`, `buckets`, `queues`: the job store, the sorted sets and the lists, by key; an absent
  key is `none`, the empty sorted set, the empty list;
* `faults`: the error, if any, with which the `n`-th store command fails;
* `ops`: the number of store commands issued so far;
* `gen`: the loop variable `i` of the goroutine started by `generateBucketName`. -/
structure World where
  jobs : String → Option JobMeta
  buckets : String → List BucketItem
  queues : String → List String
  faults : Nat → Option String
  ops : Nat
  gen : Int

/-- Error of the store command about to be issued. -/
def World.fault (w : World) : Option String := w.faults w.ops

/-- Account for one issued store command. -/
def World.issued (w : World) : World := { w with ops := w.ops + 1 }

/-- Every store command succeeds. -/
def World.reliable (w : World) : Prop := ∀ n, w.faults n = none

/-- A store with no keys, no faults and the generator at its start. -/
def emptyWorld : World where
  jobs := fun _ => none
  buckets := fun _ => []
  queues := fun _ => []
  faults := fun _ => none
  ops := 0
  gen := 1

/-! ## Store commands

The files `job.go`, `bucket.go` and `ready_queue.go` are missing; their functions follow the
component contracts of the specification.  Each function issues exactly one store command, which
fails with the scheduled error and then leaves the stored data as they are. -/

/-- Modelled from the spec: the order of bucket entries of equal timestamp (ties broken by
id) is missing from the sources; byte-wise lexicographic order on member names. -/
def memberLE : List Char → List Char → Bool
  | [], _ => true
  | _ :: _, [] => false
  | a :: as, b :: bs => decide (a.toNat < b.toNat) || (decide (a.toNat = b.toNat) && memberLE as bs)

/-- Modelled from the spec: the order of bucket entries is missing from the sources: timestamp
ascending, ties broken by id. -/
def itemLE (a b : BucketItem) : Bool :=
  decide (a.timestamp < b.timestamp) ||
    (decide (a.timestamp = b.timestamp) && memberLE a.jobId.data b.jobId.data)

/-- Modelled from the spec: the sorted-set insert behind `pushToBucket` is missing from the
sources: insert, or overwrite the score if the id is already there. -/
def zadd (z : List BucketItem) (timestamp : Int) (jobId : String) : List BucketItem :=
  ⟨timestamp, jobId⟩ :: z.filter (fun x => x.jobId ≠ jobId)

/-- Modelled from the spec: the sorted-set removal behind `removeFromBucket` is missing from the
sources: idempotent removal of the id. -/
def zrem (z : List BucketItem) (jobId : String) : List BucketItem :=
  z.filter (fun x => x.jobId ≠ jobId)

/-- Modelled from the spec: the sorted-set read behind `getFromBucket` is missing from the
sources: the single minimum entry, not removed. -/
def zmin : List BucketItem → Option BucketItem
  | [] => none
  | x :: xs =>
    match zmin xs with
    | none => some x
    | some y => if itemLE x y then some x else some y

/-- Modelled from the spec: `putJob` (job store `put(id, job)`), missing from the sources:
store the metadata of the job under the key of the id, overwriting silently. -/
def putJob (w : World) (key : String) (job : Job) : Option String × World :=
  match w.fault with
  | some e => (some e, w.issued)
  | none =>
    (none, { w.issued with
      jobs := fun k => if k = key then some ⟨job.Topic, job.Delay, job.TTR, job.Body⟩ else w.jobs k })

/-- Modelled from the spec: `getJob` (job store `get(id)`), missing from the sources: the job of
the id, `none` when the metadata is absent, an error when retrieval fails. -/
def getJob (w : World) (jobId : String) : Except String (Option Job) × World :=
  match w.fault with
  | some e => (.error e, w.issued)
  | none => (.ok ((w.jobs jobId).map fun m => ⟨jobId, m.Topic, m.Delay, m.TTR, m.Body⟩), w.issued)

/-- Modelled from the spec: `removeJob` (job store `remove(id)`), missing from the sources:
idempotent delete. -/
def removeJob (w : World) (jobId : String) : Option String × World :=
  match w.fault with
  | some e => (some e, w.issued)
  | none => (none, { w.issued with jobs := fun k => if k = jobId then none else w.jobs k })

/-- Modelled from the spec: `pushToBucket` (bucket index `push(bucketName, timestamp, id)`),
missing from the sources: insert the id, or overwrite its score. -/
def pushToBucket (w : World) (key : String) (timestamp : Int) (jobId : String) :
    Option String × World :=
  match w.fault with
  | some e => (some e, w.issued)
  | none =>
    (none, { w.issued with
      buckets := fun k => if k = key then zadd (w.buckets key) timestamp jobId else w.buckets k })

/-- Modelled from the spec: `getFromBucket` (bucket index `peek(bucketName)`), missing from the
sources: the minimum-score entry, which stays in the bucket. -/
def getFromBucket (w : World) (key : String) : Except String (Option BucketItem) × World :=
  match w.fault with
  | some e => (.error e, w.issued)
  | none => (.ok (zmin (w.buckets key)), w.issued)

/-- Modelled from the spec: `removeFromBucket` (bucket index `remove(bucketName, id)`), missing
from the sources: idempotent removal of the id from the bucket. -/
def removeFromBucket (w : World) (key : String) (jobId : String) : Option String × World :=
  match w.fault with
  | some e => (some e, w.issued)
  | none =>
    (none, { w.issued with
      buckets := fun k => if k = key then zrem (w.buckets key) jobId else w.buckets k })

/-- Modelled from the spec: `pushToReadyQueue` (ready queues, `lpush` on promotion), missing from
the sources: put the id on the list keyed by `QueueName` formatted with the topic. -/
def pushToReadyQueue (F : Fmt) (cfg : Config) (w : World) (topic : String) (jobId : String) :
    Option String × World :=
  match w.fault with
  | some e => (some e, w.issued)
  | none =>
    (none, { w.issued with
      queues := fun k =>
        if k = F.str cfg.QueueName topic then jobId :: w.queues (F.str cfg.QueueName topic)
        else w.queues k })

/-- Modelled from the spec: the list read behind `blockPopFromReadyQueue` is missing from the
sources: the first of the keys whose list is not empty, with the head and the rest of that list. -/
def firstReady (queues : String → List String) : List String → Option (String × String × List String)
  | [] => none
  | key :: keys =>
    match queues key with
    | jobId :: rest => some (key, jobId, rest)
    | [] => firstReady queues keys

/-- Modelled from the spec: `blockPopFromReadyQueue` (ready queues, `blpop` over all the topics'
lists), missing from the sources: the head of the first non-empty list is removed and returned;
the empty id reports a timeout.  The wait itself is outside the model. -/
def blockPopFromReadyQueue (F : Fmt) (cfg : Config) (w : World) (topics : List String) :
    Except String String × World :=
  match w.fault with
  | some e => (.error e, w.issued)
  | none =>
    match firstReady w.queues (topics.map (F.str cfg.QueueName)) with
    | none => (.ok "", w.issued)
    | some (key, jobId, rest) =>
      (.ok jobId, { w.issued with queues := fun k => if k = key then rest else w.queues k })

/-! ## Bucket router -/

/-- One FNV-1a round on a 32-bit state: xor the byte in, multiply by the FNV prime. -/
def fnvRound (h : Nat) (b : Nat) : Nat := ((h ^^^ b) * 16777619) % 2 ^ 32

/-- The 32-bit FNV-1a hash of a byte sequence (`hash/fnv`, `New32a`, `Write`, `Sum32`). -/
def fnv32a (bytes : List Nat) : Nat := bytes.foldl fnvRound 2166136261

/-- Function `hash`: the FNV-1a hash of the bytes of the string, a `uint32`. -/
def hash (s : String) : Nat := fnv32a (s.toUTF8.data.toList.map UInt8.toNat)

/-- Next value of the loop variable of the generator goroutine. -/
def genNext (cfg : Config) (i : Int) : Int := if i ≥ cfg.BucketSize then 1 else i + 1

/-- Value of the loop variable of the generator at its `k`-th send, counting from zero. -/
def genIndex (cfg : Config) : Nat → Int
  | 0 => 1
  | k + 1 => genNext cfg (genIndex cfg k)

/-- Function `generateBucketName`: the `k`-th name sent on the channel, counting from zero. -/
def generateBucketName (F : Fmt) (cfg : Config) (k : Nat) : String :=
  F.int cfg.BucketName (genIndex cfg k)

/-- Function `bucket`.  In round-robin mode the next name of the generator is received and the
generator moves on.  In hash mode the ordinal is `int(h) % size + 1` with the truncated
remainder of Go on a 64-bit `int`; a zero `size` is the run-time panic `none`. -/
def bucket (F : Fmt) (cfg : Config) (w : World) (id : String) : Option (String × World) :=
  if cfg.BucketMethod ≠ 0 then
    some (F.int cfg.BucketName w.gen, { w with gen := genNext cfg w.gen })
  else
    let size := cfg.BucketSize
    let h := hash id
    if size = 0 then none
    else some (F.int cfg.BucketName (Int.tmod (wrapInt64 (h : Int)) size + 1), w)

/-- Function `initTimers`: the bucket names for which a scanner is started, in order (for a
`BucketSize` that is not negative). -/
def initTimers (F : Fmt) (cfg : Config) : List String :=
  (List.range cfg.BucketSize.toNat).map fun (i : Nat) => F.int cfg.BucketName ((i : Int) + 1)

/-- The router as the specification words it for hash mode:
`format(BucketName, (fnv32a(id) mod BucketSize) + 1)`. -/
def specBucket (F : Fmt) (cfg : Config) (id : String) : String :=
  F.int cfg.BucketName
    ((fnv32a (id.toUTF8.data.toList.map UInt8.toNat) % cfg.BucketSize.toNat + 1 : Nat) : Int)

/-! ## Queue operations -/

/-- The error `errors.New("invalid job")`. -/
def invalidJob : String := "invalid job"

/-- Function `Push`.  The result is `none` when the call panics, else the returned error and the
state of the world. -/
def Push (F : Fmt) (cfg : Config) (w : World) (job : Job) : Option (Option String × World) :=
  if job.Id = "" ∨ job.Topic = "" ∨ job.Delay < 0 ∨ job.TTR ≤ 0 then
    some (some invalidJob, w)
  else
    match putJob w job.Id job with
    | (some err, w1) => some (some err, w1)
    | (none, w1) =>
      match bucket F cfg w1 job.Id with
      | none => none
      | some (name, w2) =>
        match pushToBucket w2 name job.Delay job.Id with
        | (some err, w3) => some (some err, w3)
        | (none, w3) => some (none, w3)

/-- Function `Pop` at the clock reading `now` (`time.Now().Unix()`).  The result is `none` when
the call panics, else the returned job, the returned error and the state of the world. -/
def Pop (F : Fmt) (cfg : Config) (now : Int) (w : World) (topics : List String) :
    Option ((Option Job × Option String) × World) :=
  match blockPopFromReadyQueue F cfg w topics with
  | (.error err, w1) => some ((none, some err), w1)
  | (.ok jobId, w1) =>
    if jobId = "" then some ((none, none), w1)
    else
      match getJob w1 jobId with
      | (.error err, w2) => some ((none, some err), w2)
      | (.ok none, w2) => some ((none, none), w2)
      | (.ok (some job), w2) =>
        let timestamp := wrapInt64 (now + job.TTR)
        match bucket F cfg w2 job.Id with
        | none => none
        | some (name, w3) =>
          match pushToBucket w3 name timestamp job.Id with
          | (err, w4) => some ((some job, err), w4)

/-- Function `Remove`. -/
def Remove (w : World) (jobId : String) : Option String × World := removeJob w jobId

/-- Function `Get`. -/
def Get (w : World) (jobId : String) : Except String (Option Job) × World := getJob w jobId

/-! ## Scanner -/

/-- How one pass through the body of the scanner loop ends. -/
inductive Flow where
  /-- The body ran to a `continue` or to its end: the loop goes round again. -/
  | next
  /-- The body executed `return`. -/
  | done
deriving DecidableEq

/-- One pass through the body of the `for` loop of `tickHandler`, at tick time `t` (`t.Unix()`). -/
def tickIter (F : Fmt) (cfg : Config) (t : Int) (bucketName : String) (w : World) : Flow × World :=
  match getFromBucket w bucketName with
  | (.error _, w1) => (.done, w1)
  | (.ok none, w1) => (.done, w1)
  | (.ok (some bucketItem), w1) =>
    if bucketItem.timestamp > t then (.done, w1)
    else
      match getJob w1 bucketItem.jobId with
      | (.error _, w2) => (.next, w2)
      | (.ok none, w2) => (.next, (removeFromBucket w2 bucketName bucketItem.jobId).2)
      | (.ok (some job), w2) =>
        if job.Delay > t then
          let w3 := (removeFromBucket w2 bucketName bucketItem.jobId).2
          (.next, (pushToBucket w3 bucketName job.Delay bucketItem.jobId).2)
        else
          match pushToReadyQueue F cfg w2 job.Topic bucketItem.jobId with
          | (some _, w3) => (.next, w3)
          | (none, w3) => (.next, (removeFromBucket w3 bucketName bucketItem.jobId).2)

/-- The scanner loop cut off after `n` passes: the state reached, and whether the handler has
returned by then. -/
def tickLoop (F : Fmt) (cfg : Config) (t : Int) (bucketName : String) : Nat → World → Flow × World
  | 0, w => (.next, w)
  | n + 1, w =>
    match tickIter F cfg t bucketName w with
    | (.done, w1) => (.done, w1)
    | (.next, w1) => tickLoop F cfg t bucketName n w1

/-- Function `tickHandler`: the state in which the handler returns, `none` when it has not
returned within `fuel` passes of the loop. -/
def tickHandler (F : Fmt) (cfg : Config) (fuel : Nat) (t : Int) (bucketName : String) (w : World) :
    Option World :=
  match tickLoop F cfg t bucketName fuel w with
  | (.done, w1) => some w1
  | (.next, _) => none

/-- Number of entries of a bucket due at time `t`. -/
def dueCount (t : Int) (z : List BucketItem) : Nat := (z.filter fun x => x.timestamp ≤ t).length

/-- Sorted-set invariant: a member has at most one entry. -/
def uniqueMembers (z : List BucketItem) : Prop := (z.map BucketItem.jobId).Nodup

/-- Function `Init`, as far as the model goes: the generator goroutine starts with `i := 1`. -/
def Init (w : World) : World := { w with gen := 1 }

/-- Successive calls of `bucket`, one per id of the list: the names returned, in call order. -/
def bucketCalls (F : Fmt) (cfg : Config) : World → List String → Option (List String × World)
  | w, [] => some ([], w)
  | w, id :: ids =>
    match bucket F cfg w id with
    | none => none
    | some (name, w1) =>
      match bucketCalls F cfg w1 ids with
      | none => none
      | some (names, w2) => some (name :: names, w2)

/-- Relation between the world `w0` a tick on the bucket `b` at time `t` starts from and a world
`w` it reaches: the job store, the fault schedule, the generator and the other buckets are the
same; an entry of `b` was there at the start or is not yet due; each ready queue has grown at
its head only, by ids that had a due entry in `b` and whose metadata are due and name that queue. -/
structure TickInv (F : Fmt) (cfg : Config) (t : Int) (b : String) (w0 w : World) : Prop where
  jobs : w.jobs = w0.jobs
  faults : w.faults = w0.faults
  gen : w.gen = w0.gen
  others : ∀ k, k ≠ b → w.buckets k = w0.buckets k
  entries : ∀ x ∈ w.buckets b, x ∈ w0.buckets b ∨ t < x.timestamp
  queues : ∀ q, ∃ pushed, w.queues q = pushed ++ w0.queues q ∧
    ∀ p ∈ pushed, (∃ x ∈ w0.buckets b, x.jobId = p ∧ x.timestamp ≤ t) ∧
      ∃ m, w0.jobs p = some m ∧ m.Delay ≤ t ∧ q = F.str cfg.QueueName m.Topic

/-! ## Example worlds -/

/-- A store holding the job `a` of topic `t`, with the given ttr, ready for a consumer. -/
def readyWorld (ttr : Int) : World :=
  { emptyWorld with
    jobs := fun k => if k = "a" then some ⟨"t", 0, ttr, "x"⟩ else none
    queues := fun k => if k = "dq_queue_t" then ["a"] else [] }

/-- A store whose second command fails: the bucket `dq_bucket_1` holds the due entry of the job
`a`, whose metadata are present and due. -/
def flakyWorld : World :=
  { emptyWorld with
    jobs := fun k => if k = "a" then some ⟨"t", 0, 60, "x"⟩ else none
    buckets := fun k => if k = "dq_bucket_1" then [⟨0, "a"⟩] else []
    faults := fun n => if n = 1 then some "EOF" else none }

/-- A store whose bucket `dq_bucket_1` holds three entries: `gone` has no metadata, `late` has
been pushed again with the delay 50, `due` is due at time 10. -/
def scanWorld : World :=
  { emptyWorld with
    jobs := fun k =>
      if k = "late" then some ⟨"t", 50, 60, "x"⟩
      else if k = "due" then some ⟨"t", 3, 60, "y"⟩ else none
    buckets := fun k =>
      if k = "dq_bucket_1" then [⟨1, "gone"⟩, ⟨2, "late"⟩, ⟨3, "due"⟩, ⟨40, "later"⟩] else [] }

/-- The default settings in round-robin mode. -/
def roundRobinConfig : Config := { defaultConfig with BucketMethod := 1 }

/-- The store after the job `d` has been pushed with the delay 1, in round-robin mode. -/
def pushedOnce : World :=
  match Push goFmt roundRobinConfig (Init emptyWorld) ⟨"d", "t", 1, 60, "x"⟩ with
  | some (_, w) => w
  | none => emptyWorld

/-- The store after the job `d` has been pushed again, with the delay 5. -/
def pushedTwice : World :=
  match Push goFmt roundRobinConfig pushedOnce ⟨"d", "t", 5, 60, "x"⟩ with
  | some (_, w) => w
  | none => emptyWorld

/-! ## Arithmetic of the router -/

theorem wrapInt64_of_range (x : Int) (h0 : -(2 ^ 63) ≤ x) (h1 : x < 2 ^ 63) : wrapInt64 x = x := by
  unfold wrapInt64
  rw [Int.emod_eq_of_lt (by omega) (by omega)]
  omega

theorem fnvRound_lt (h b : Nat) : fnvRound h b < 2 ^ 32 := by
  unfold fnvRound
  exact Nat.mod_lt _ (by norm_num)

theorem foldl_fnvRound_lt (bytes : List Nat) (h : Nat) (hh : h < 2 ^ 32) :
    bytes.foldl fnvRound h < 2 ^ 32 := by
  induction bytes generalizing h with
  | nil => simpa using hh
  | cons b bs ih => exact ih _ (fnvRound_lt h b)

theorem fnv32a_lt (bytes : List Nat) : fnv32a bytes < 2 ^ 32 :=
  foldl_fnvRound_lt bytes _ (by norm_num)

theorem hash_lt (s : String) : hash s < 2 ^ 32 := fnv32a_lt _

/-- The ordinal the source computes in hash mode is the one the specification names. -/
theorem hash_ordinal (h : Nat) (size : Int) (hh : h < 2 ^ 32) (hs : 1 ≤ size) :
    Int.tmod (wrapInt64 (h : Int)) size + 1 = ((h % size.toNat + 1 : Nat) : Int) := by
  have hw : wrapInt64 (h : Int) = (h : Int) := by
    apply wrapInt64_of_range <;> omega
  rw [hw, Int.tmod_eq_emod (Int.ofNat_nonneg h) (by omega)]
  have hsz : ((size.toNat : Nat) : Int) = size := Int.toNat_of_nonneg (by omega)
  simp only [Nat.cast_add, Nat.cast_one, Int.natCast_mod, hsz]

theorem genIndex_eq (cfg : Config) (hs : 1 ≤ cfg.BucketSize) (k : Nat) :
    genIndex cfg k = (k : Int) % cfg.BucketSize + 1 := by
  induction k with
  | zero => simp [genIndex]
  | succ k ih =>
    have hpos : (0 : Int) < cfg.BucketSize := by omega
    have hr0 : 0 ≤ (k : Int) % cfg.BucketSize := Int.emod_nonneg _ (by omega)
    have hr1 : (k : Int) % cfg.BucketSize < cfg.BucketSize := Int.emod_lt_of_pos _ hpos
    have hk : ((k + 1 : Nat) : Int) % cfg.BucketSize
        = ((k : Int) % cfg.BucketSize + 1) % cfg.BucketSize := by
      push_cast
      rw [Int.add_emod (k : Int) 1, Int.add_emod ((k : Int) % cfg.BucketSize) 1, Int.emod_emod]
    simp only [genIndex, genNext, ih, hk]
    generalize (k : Int) % cfg.BucketSize = r at hr0 hr1
    by_cases hlast : r + 1 ≥ cfg.BucketSize
    · have heq : r + 1 = cfg.BucketSize := by omega
      rw [if_pos hlast, heq, Int.emod_self]
      rfl
    · rw [if_neg hlast, Int.emod_eq_of_lt (by omega) (by omega)]

theorem bucketCalls_from (F : Fmt) (cfg : Config) (hm : cfg.BucketMethod ≠ 0) (ids : List String) :
    ∀ (w : World) (j : Nat), w.gen = genIndex cfg j →
      ∃ w1, bucketCalls F cfg w ids
        = some ((List.range' j ids.length).map (generateBucketName F cfg), w1) := by
  induction ids with
  | nil => intro w j _; exact ⟨w, by simp [bucketCalls]⟩
  | cons id ids ih =>
    intro w j hj
    obtain ⟨w1, h1⟩ := ih { w with gen := genNext cfg w.gen } (j + 1) (by simp [genIndex, hj])
    refine ⟨w1, ?_⟩
    simp only [bucketCalls, bucket, hm, ne_eq, not_false_eq_true, if_true, h1]
    simp only [List.length_cons, List.range'_succ, List.map_cons, generateBucketName, hj]

/-- What `bucket` leaves alone: everything but the generator. -/
theorem bucket_world (F : Fmt) (cfg : Config) (w : World) (id name : String) (w2 : World)
    (h : bucket F cfg w id = some (name, w2)) :
    w2.jobs = w.jobs ∧ w2.buckets = w.buckets ∧ w2.queues = w.queues ∧ w2.faults = w.faults ∧
      w2.ops = w.ops := by
  simp only [bucket] at h
  split_ifs at h <;> simp only [Option.some.injEq, Prod.mk.injEq] at h <;>
    obtain ⟨_, rfl⟩ := h <;> simp

/-! ## Sorted sets -/

theorem zmin_mem (z : List BucketItem) (x : BucketItem) (h : zmin z = some x) : x ∈ z := by
  induction z generalizing x with
  | nil => simp [zmin] at h
  | cons y ys ih =>
    simp only [zmin] at h
    cases hm : zmin ys with
    | none =>
      rw [hm] at h
      simp only [Option.some.injEq] at h
      simp [h]
    | some m =>
      rw [hm] at h
      simp only at h
      split_ifs at h
      · simp only [Option.some.injEq] at h
        simp [h]
      · simp only [Option.some.injEq] at h
        subst h
        exact List.mem_cons_of_mem _ (ih _ hm)

theorem zmin_eq_none (z : List BucketItem) (h : zmin z = none) : z = [] := by
  cases z with
  | nil => rfl
  | cons y ys =>
    simp only [zmin] at h
    cases hm : zmin ys with
    | none => rw [hm] at h; simp at h
    | some m =>
      rw [hm] at h
      simp only at h
      split_ifs at h

theorem itemLE_timestamp (a b : BucketItem) (h : itemLE a b = true) : a.timestamp ≤ b.timestamp := by
  simp only [itemLE, Bool.or_eq_true, Bool.and_eq_true, decide_eq_true_eq] at h
  rcases h with h | h
  · omega
  · omega

theorem itemLE_false (a b : BucketItem) (h : ¬ itemLE a b = true) : b.timestamp ≤ a.timestamp := by
  simp only [itemLE, Bool.or_eq_true, Bool.and_eq_true, decide_eq_true_eq, not_or] at h
  omega

theorem zmin_le (z : List BucketItem) (x : BucketItem) (h : zmin z = some x) :
    ∀ y ∈ z, x.timestamp ≤ y.timestamp := by
  induction z generalizing x with
  | nil => simp [zmin] at h
  | cons a as ih =>
    intro y hy
    simp only [zmin] at h
    cases hm : zmin as with
    | none =>
      rw [hm] at h
      simp only [Option.some.injEq] at h
      have has := zmin_eq_none as hm
      subst has
      simp only [List.mem_singleton] at hy
      rw [hy, h]
    | some m =>
      rw [hm] at h
      simp only at h
      have hrec := ih m hm
      rcases List.mem_cons.mp hy with hya | hya
      · subst hya
        split_ifs at h with hle
        · simp only [Option.some.injEq] at h
          rw [h]
        · simp only [Option.some.injEq] at h
          subst h
          exact itemLE_false _ _ hle
      · split_ifs at h with hle
        · simp only [Option.some.injEq] at h
          subst h
          exact le_trans (itemLE_timestamp _ _ hle) (hrec y hya)
        · simp only [Option.some.injEq] at h
          subst h
          exact hrec y hya

theorem dueCount_zrem_lt (t : Int) (z : List BucketItem) (x : BucketItem) (hx : x ∈ z)
    (hdue : x.timestamp ≤ t) : dueCount t (zrem z x.jobId) < dueCount t z := by
  simp only [dueCount, zrem, List.filter_filter]
  have hcomm : z.filter (fun a => decide (a.timestamp ≤ t) && decide (a.jobId ≠ x.jobId))
      = (z.filter (fun a => decide (a.timestamp ≤ t))).filter (fun a => decide (a.jobId ≠ x.jobId)) := by
    rw [List.filter_filter]
    congr 1
    funext a
    exact Bool.and_comm _ _
  rw [hcomm]
  apply List.length_filter_lt_length_iff_exists.mpr
  exact ⟨x, List.mem_filter.mpr ⟨hx, by simpa using hdue⟩, by simp⟩

theorem dueCount_zadd_future (t : Int) (z : List BucketItem) (ts : Int) (id : String)
    (hts : t < ts) : dueCount t (zadd z ts id) ≤ dueCount t z := by
  have hnd : ¬ ts ≤ t := by omega
  simp only [dueCount, zadd, List.filter_cons, hnd, decide_False, Bool.false_eq_true, if_false,
    List.filter_filter]
  rw [← List.filter_filter]
  exact ((List.filter_sublist _).filter _).length_le

/-! ## Store commands: frame lemmas -/

theorem getFromBucket_snd (w : World) (k : String) : (getFromBucket w k).2 = w.issued := by
  unfold getFromBucket
  split <;> rfl

theorem getFromBucket_ok (w : World) (k : String) (o : Option BucketItem) (w1 : World)
    (h : getFromBucket w k = (.ok o, w1)) : zmin (w.buckets k) = o := by
  unfold getFromBucket at h
  split at h
  · simp at h
  · simp only [Prod.mk.injEq, Except.ok.injEq] at h
    exact h.1

theorem getJob_snd (w : World) (id : String) : (getJob w id).2 = w.issued := by
  unfold getJob
  split <;> rfl

theorem getJob_ok (w : World) (id : String) (o : Option Job) (w1 : World)
    (h : getJob w id = (.ok o, w1)) :
    (w.jobs id).map (fun m => (⟨id, m.Topic, m.Delay, m.TTR, m.Body⟩ : Job)) = o := by
  unfold getJob at h
  split at h
  · simp at h
  · simp only [Prod.mk.injEq, Except.ok.injEq] at h
    exact h.1

namespace TickInv

variable {F : Fmt} {cfg : Config} {t : Int} {b : String} {w0 w : World}

theorem start (F : Fmt) (cfg : Config) (t : Int) (b : String) (w : World) : TickInv F cfg t b w w where
  jobs := rfl
  faults := rfl
  gen := rfl
  others := fun _ _ => rfl
  entries := fun _ hx => Or.inl hx
  queues := fun _ => ⟨[], rfl, fun _ hp => absurd hp (List.not_mem_nil _)⟩

theorem after_command (h : TickInv F cfg t b w0 w) : TickInv F cfg t b w0 w.issued where
  jobs := h.jobs
  faults := h.faults
  gen := h.gen
  others := h.others
  entries := h.entries
  queues := h.queues

theorem after_remove (h : TickInv F cfg t b w0 w) (id : String) :
    TickInv F cfg t b w0 (removeFromBucket w b id).2 := by
  unfold DelayQueue.removeFromBucket
  split
  · exact h.after_command
  · refine ⟨h.jobs, h.faults, h.gen, ?_, ?_, h.queues⟩
    · intro k hk
      simp only [hk, if_false]
      exact h.others k hk
    · intro x hx
      simp only [if_true, zrem] at hx
      exact h.entries x (List.mem_filter.mp hx).1

theorem after_insert (h : TickInv F cfg t b w0 w) (ts : Int) (id : String) (hts : t < ts) :
    TickInv F cfg t b w0 (pushToBucket w b ts id).2 := by
  unfold DelayQueue.pushToBucket
  split
  · exact h.after_command
  · refine ⟨h.jobs, h.faults, h.gen, ?_, ?_, h.queues⟩
    · intro k hk
      simp only [hk, if_false]
      exact h.others k hk
    · intro x hx
      simp only [if_true, zadd, List.mem_cons] at hx
      rcases hx with hx | hx
      · right
        rw [hx]
        exact hts
      · exact h.entries x (List.mem_filter.mp hx).1

theorem after_promotion (h : TickInv F cfg t b w0 w) (topic id : String)
    (hentry : ∃ x ∈ w0.buckets b, x.jobId = id ∧ x.timestamp ≤ t)
    (hmeta : ∃ m, w0.jobs id = some m ∧ m.Delay ≤ t ∧ m.Topic = topic) :
    TickInv F cfg t b w0 (pushToReadyQueue F cfg w topic id).2 := by
  unfold DelayQueue.pushToReadyQueue
  split
  · exact h.after_command
  · refine ⟨h.jobs, h.faults, h.gen, h.others, h.entries, ?_⟩
    intro q
    obtain ⟨pushed, hq, hp⟩ := h.queues q
    by_cases hk : q = F.str cfg.QueueName topic
    · subst hk
      refine ⟨id :: pushed, ?_, ?_⟩
      · simp only [if_true, hq, List.cons_append]
      · intro p hpm
        rcases List.mem_cons.mp hpm with hpe | hpe
        · subst hpe
          obtain ⟨m, hm1, hm2, hm3⟩ := hmeta
          exact ⟨hentry, m, hm1, hm2, by rw [hm3]⟩
        · exact hp p hpe
    · exact ⟨pushed, by simp only [hk, if_false]; exact hq, hp⟩

end TickInv

/-! ## Scanner: what every pass preserves -/

theorem tickIter_inv (F : Fmt) (cfg : Config) (t : Int) (b : String) (w0 w : World)
    (h : TickInv F cfg t b w0 w) : TickInv F cfg t b w0 (tickIter F cfg t b w).2 := by
  have h1 : TickInv F cfg t b w0 w.issued := h.after_command
  have hsnd := getFromBucket_snd w b
  unfold tickIter
  rcases hg : getFromBucket w b with ⟨r, w1⟩
  rw [hg] at hsnd
  simp only at hsnd
  subst hsnd
  rcases r with e | o
  · exact h1
  · rcases o with _ | x
    · exact h1
    · simp only
      have hx : zmin (w.buckets b) = some x := getFromBucket_ok w b _ _ hg
      split_ifs with hts
      · exact h1
      · have h2 : TickInv F cfg t b w0 w.issued.issued := h1.after_command
        have hsnd2 := getJob_snd w.issued x.jobId
        rcases hj : getJob w.issued x.jobId with ⟨rj, w2⟩
        rw [hj] at hsnd2
        simp only at hsnd2
        subst hsnd2
        rcases rj with e | oj
        · exact h2
        · rcases oj with _ | job
          · exact h2.after_remove _
          · simp only
            have hjob := getJob_ok w.issued x.jobId _ _ hj
            split_ifs with hd
            · exact (h2.after_remove _).after_insert _ _ (by omega)
            · have hmeta : ∃ m, w0.jobs x.jobId = some m ∧ m.Delay ≤ t ∧ m.Topic = job.Topic := by
                have hjobs : w.issued.jobs = w0.jobs := h1.jobs
                rw [hjobs] at hjob
                cases hm : w0.jobs x.jobId with
                | none => rw [hm] at hjob; simp at hjob
                | some m =>
                  rw [hm] at hjob
                  simp only [Option.map_some', Option.some.injEq] at hjob
                  subst hjob
                  exact ⟨m, rfl, by simpa using hd, rfl⟩
              have hentry : ∃ y ∈ w0.buckets b, y.jobId = x.jobId ∧ y.timestamp ≤ t := by
                have hmem := zmin_mem _ _ hx
                rcases h.entries x hmem with h0 | h0
                · exact ⟨x, h0, rfl, by omega⟩
                · omega
              have h3 := h2.after_promotion job.Topic x.jobId hentry hmeta
              rcases hq : pushToReadyQueue F cfg w.issued.issued job.Topic x.jobId with ⟨rq, w3⟩
              rw [hq] at h3
              rcases rq with _ | e
              · exact h3.after_remove _
              · exact h3

theorem tickLoop_inv (F : Fmt) (cfg : Config) (t : Int) (b : String) (w0 : World) (n : Nat) :
    ∀ w, TickInv F cfg t b w0 w → TickInv F cfg t b w0 (tickLoop F cfg t b n w).2 := by
  induction n with
  | zero => intro w h; exact h
  | succ n ih =>
    intro w h
    have hstep := tickIter_inv F cfg t b w0 w h
    simp only [tickLoop]
    rcases hi : tickIter F cfg t b w with ⟨flow, w1⟩
    rw [hi] at hstep
    cases flow with
    | done => exact hstep
    | next => exact ih w1 hstep

/-- What a tick, cut off after any number of passes, has done to the world it started from. -/
theorem tickLoop_from_start (F : Fmt) (cfg : Config) (t : Int) (b : String) (w : World) (n : Nat) :
    TickInv F cfg t b w (tickLoop F cfg t b n w).2 :=
  tickLoop_inv F cfg t b w n w (TickInv.start F cfg t b w)

/-! ## Scanner: single passes on a store whose commands succeed -/

/-- A pass that finds the bucket empty or its minimum not yet due returns. -/
theorem tickIter_idle (F : Fmt) (cfg : Config) (t : Int) (b : String) (w : World)
    (hpeek : w.faults w.ops = none)
    (hz : zmin (w.buckets b) = none ∨ ∃ x, zmin (w.buckets b) = some x ∧ t < x.timestamp) :
    tickIter F cfg t b w = (.done, w.issued) := by
  rcases hz with hz | ⟨x, hz, hts⟩
  · simp [tickIter, getFromBucket, World.fault, hpeek, hz]
  · simp [tickIter, getFromBucket, World.fault, hpeek, hz, hts]

/-- A pass whose metadata retrieval fails ends with `continue`, having issued two commands. -/
theorem tickIter_getJob_error (F : Fmt) (cfg : Config) (t : Int) (b : String) (w : World)
    (x : BucketItem) (e : String) (hpeek : w.faults w.ops = none)
    (hz : zmin (w.buckets b) = some x) (hdue : x.timestamp ≤ t)
    (hget : w.faults (w.ops + 1) = some e) :
    tickIter F cfg t b w = (.next, w.issued.issued) := by
  have hts : ¬ t < x.timestamp := by omega
  simp [tickIter, getFromBucket, getJob, World.fault, World.issued, hpeek, hz, hts, hget]

/-- A pass over a due minimum whose metadata are absent removes the entry. -/
theorem tickIter_absent (F : Fmt) (cfg : Config) (t : Int) (b : String) (w : World)
    (x : BucketItem) (hpeek : w.faults w.ops = none) (hget : w.faults (w.ops + 1) = none)
    (hrem : w.faults (w.ops + 2) = none)
    (hz : zmin (w.buckets b) = some x) (hdue : x.timestamp ≤ t) (habs : w.jobs x.jobId = none) :
    ∃ w1, tickIter F cfg t b w = (.next, w1) ∧ w1.buckets b = zrem (w.buckets b) x.jobId ∧
      w1.queues = w.queues ∧ w1.jobs = w.jobs ∧ w1.faults = w.faults ∧ w1.ops = w.ops + 3 := by
  have hts : ¬ t < x.timestamp := by omega
  refine ⟨(removeFromBucket w.issued.issued b x.jobId).2, ?_, ?_⟩
  · simp only [tickIter, getFromBucket, getJob, World.fault, World.issued, hpeek, hz,
      gt_iff_lt, hts, if_false, hget, habs, Option.map_none']
  · simp [removeFromBucket, World.fault, World.issued, hrem]

/-- A pass over a due minimum whose metadata carry a later delay moves the entry to that delay. -/
theorem tickIter_stale (F : Fmt) (cfg : Config) (t : Int) (b : String) (w : World)
    (x : BucketItem) (m : JobMeta) (hpeek : w.faults w.ops = none)
    (hget : w.faults (w.ops + 1) = none) (hrem : w.faults (w.ops + 2) = none)
    (hpush : w.faults (w.ops + 3) = none)
    (hz : zmin (w.buckets b) = some x) (hdue : x.timestamp ≤ t) (hjob : w.jobs x.jobId = some m)
    (hlate : t < m.Delay) :
    ∃ w1, tickIter F cfg t b w = (.next, w1) ∧
      w1.buckets b = zadd (zrem (w.buckets b) x.jobId) m.Delay x.jobId ∧
      w1.queues = w.queues ∧ w1.jobs = w.jobs ∧ w1.faults = w.faults ∧ w1.ops = w.ops + 4 := by
  have hts : ¬ t < x.timestamp := by omega
  refine ⟨(pushToBucket (removeFromBucket w.issued.issued b x.jobId).2 b m.Delay x.jobId).2, ?_, ?_⟩
  · simp only [tickIter, getFromBucket, getJob, World.fault, World.issued, hpeek, hz,
      gt_iff_lt, hts, if_false, hget, hjob, Option.map_some', hlate, if_true]
  · simp [removeFromBucket, pushToBucket, World.fault, World.issued, hrem, hpush]

/-- A pass over a due minimum whose metadata are due promotes the id and removes the entry. -/
theorem tickIter_promote (F : Fmt) (cfg : Config) (t : Int) (b : String) (w : World)
    (x : BucketItem) (m : JobMeta) (hpeek : w.faults w.ops = none)
    (hget : w.faults (w.ops + 1) = none) (hpush : w.faults (w.ops + 2) = none)
    (hrem : w.faults (w.ops + 3) = none)
    (hz : zmin (w.buckets b) = some x) (hdue : x.timestamp ≤ t) (hjob : w.jobs x.jobId = some m)
    (hnow : m.Delay ≤ t) :
    ∃ w1, tickIter F cfg t b w = (.next, w1) ∧ w1.buckets b = zrem (w.buckets b) x.jobId ∧
      w1.queues (F.str cfg.QueueName m.Topic) = x.jobId :: w.queues (F.str cfg.QueueName m.Topic) ∧
      w1.jobs = w.jobs ∧ w1.faults = w.faults ∧ w1.ops = w.ops + 4 := by
  have hts : ¬ t < x.timestamp := by omega
  have hlate : ¬ t < m.Delay := by omega
  refine ⟨(removeFromBucket (pushToReadyQueue F cfg w.issued.issued m.Topic x.jobId).2 b
    x.jobId).2, ?_, ?_⟩
  · simp only [tickIter, getFromBucket, getJob, World.fault, World.issued, hpeek, hz,
      gt_iff_lt, hts, if_false, hget, hjob, Option.map_some', hlate, pushToReadyQueue, hpush]
  · simp [removeFromBucket, pushToReadyQueue, World.fault, World.issued, hrem, hpush]

/-- On a store whose commands succeed a pass either returns, the bucket then holding no due
entry, or goes round again with fewer due entries. -/
theorem tickIter_reliable (F : Fmt) (cfg : Config) (t : Int) (b : String) (w : World)
    (hw : w.reliable) :
    (tickIter F cfg t b w = (.done, w.issued) ∧
        (zmin (w.buckets b) = none ∨ ∃ x, zmin (w.buckets b) = some x ∧ t < x.timestamp)) ∨
      (∃ w1, tickIter F cfg t b w = (.next, w1) ∧ w1.reliable ∧
        dueCount t (w1.buckets b) < dueCount t (w.buckets b)) := by
  cases hz : zmin (w.buckets b) with
  | none => exact Or.inl ⟨tickIter_idle F cfg t b w (hw _) (Or.inl hz), Or.inl rfl⟩
  | some x =>
    by_cases hts : t < x.timestamp
    · exact Or.inl ⟨tickIter_idle F cfg t b w (hw _) (Or.inr ⟨x, hz, hts⟩), Or.inr ⟨x, rfl, hts⟩⟩
    · right
      have hdue : x.timestamp ≤ t := by omega
      have hmem := zmin_mem _ _ hz
      cases hj : w.jobs x.jobId with
      | none =>
        obtain ⟨w1, h1, h2, -, -, h3, -⟩ :=
          tickIter_absent F cfg t b w x (hw _) (hw _) (hw _) hz hdue hj
        refine ⟨w1, h1, fun n => by rw [h3]; exact hw n, ?_⟩
        rw [h2]
        exact dueCount_zrem_lt t _ x hmem hdue
      | some m =>
        by_cases hlate : t < m.Delay
        · obtain ⟨w1, h1, h2, -, -, h3, -⟩ :=
            tickIter_stale F cfg t b w x m (hw _) (hw _) (hw _) (hw _) hz hdue hj hlate
          refine ⟨w1, h1, fun n => by rw [h3]; exact hw n, ?_⟩
          rw [h2]
          exact lt_of_le_of_lt (dueCount_zadd_future t _ _ _ hlate)
            (dueCount_zrem_lt t _ x hmem hdue)
        · obtain ⟨w1, h1, h2, -, -, h3, -⟩ :=
            tickIter_promote F cfg t b w x m (hw _) (hw _) (hw _) (hw _) hz hdue hj (by omega)
          refine ⟨w1, h1, fun n => by rw [h3]; exact hw n, ?_⟩
          rw [h2]
          exact dueCount_zrem_lt t _ x hmem hdue

theorem tickLoop_reliable (F : Fmt) (cfg : Config) (t : Int) (b : String) (n : Nat) :
    ∀ w : World, w.reliable → dueCount t (w.buckets b) < n →
      ∃ w1, tickLoop F cfg t b n w = (.done, w1) ∧
        (zmin (w1.buckets b) = none ∨ ∃ x, zmin (w1.buckets b) = some x ∧ t < x.timestamp) := by
  induction n with
  | zero => intro w _ h; omega
  | succ n ih =>
    intro w hw hlt
    rcases tickIter_reliable F cfg t b w hw with ⟨h1, h2⟩ | ⟨w1, h1, h2, h3⟩
    · exact ⟨w.issued, by simp only [tickLoop, h1], h2⟩
    · obtain ⟨w2, h4, h5⟩ := ih w1 h2 (by omega)
      exact ⟨w2, by simp only [tickLoop, h1, h4], h5⟩

/-- While the peek succeeds and the retrieval of the metadata keeps failing, the handler does not
return, however many passes it is given. -/
theorem tickLoop_retrieval_down (F : Fmt) (cfg : Config) (t : Int) (b : String) (x : BucketItem)
    (n : Nat) :
    ∀ w : World, zmin (w.buckets b) = some x → x.timestamp ≤ t →
      (∀ k, w.faults (w.ops + 2 * k) = none ∧ ∃ e, w.faults (w.ops + 2 * k + 1) = some e) →
      (tickLoop F cfg t b n w).1 = .next ∧ tickHandler F cfg n t b w = none := by
  induction n with
  | zero => intro w _ _ _; simp [tickLoop, tickHandler]
  | succ n ih =>
    intro w hz hdue hf
    obtain ⟨h0, e, h1⟩ := hf 0
    have hi := tickIter_getJob_error F cfg t b w x e (by simpa using h0) hz hdue
      (by simpa using h1)
    have hrec := ih w.issued.issued hz hdue (fun k => by
      have := hf (k + 1)
      simp only [World.issued]
      have e1 : w.ops + 1 + 1 + 2 * k = w.ops + 2 * (k + 1) := by omega
      rw [e1]
      exact this)
    simp only [tickHandler, tickLoop, hi] at hrec ⊢
    exact hrec

theorem push_ok_jobs (F : Fmt) (cfg : Config) (w w2 : World) (job : Job)
    (h : Push F cfg w job = some (none, w2)) :
    w2.jobs job.Id = some ⟨job.Topic, job.Delay, job.TTR, job.Body⟩ := by
  unfold Push at h
  split_ifs at h with hv
  · simp [invalidJob] at h
  · rcases hp : putJob w job.Id job with ⟨r, w1⟩
    rw [hp] at h
    rcases r with _ | e
    · simp only at h
      have hj1 : w1.jobs job.Id = some ⟨job.Topic, job.Delay, job.TTR, job.Body⟩ := by
        unfold putJob at hp
        split at hp
        · simp at hp
        · simp only [Prod.mk.injEq, true_and] at hp
          rw [← hp]
          simp
      rcases hb : bucket F cfg w1 job.Id with _ | ⟨name, w3⟩
      · rw [hb] at h
        simp at h
      · rw [hb] at h
        simp only at h
        have hj3 := (bucket_world F cfg _ _ _ _ hb).1
        rcases hq : pushToBucket w3 name job.Delay job.Id with ⟨r2, w4⟩
        rw [hq] at h
        rcases r2 with _ | e
        · simp only [Option.some.injEq, Prod.mk.injEq, true_and] at h
          subst h
          unfold pushToBucket at hq
          split at hq
          · simp at hq
          · simp only [Prod.mk.injEq, true_and] at hq
            rw [← hq]
            simp only [World.issued]
            rw [hj3, hj1]
        · simp at h
    · simp at h

theorem eq_of_uniqueMembers (z : List BucketItem) (hu : uniqueMembers z) (x y : BucketItem)
    (hx : x ∈ z) (hy : y ∈ z) (hid : x.jobId = y.jobId) : x = y :=
  List.inj_on_of_nodup_map hu hx hy hid

/-! ## Push -/

/-- C1: on a store whose commands succeed, `Push` returns the error `invalid job` exactly when the
id is empty, the topic is empty, the delay is negative or the ttr is not positive; and a call
that returns this error has issued no store command: the world, with its job store, buckets,
queues and command counter, is the one the call started from. -/
theorem C1_push_invalid_job (F : Fmt) (cfg : Config) (w : World) (job : Job)
    (hw : w.reliable) :
    ((∃ w1, Push F cfg w job = some (some invalidJob, w1)) ↔
        (job.Id = "" ∨ job.Topic = "" ∨ job.Delay < 0 ∨ job.TTR ≤ 0)) ∧
      (∀ w1, Push F cfg w job = some (some invalidJob, w1) → w1 = w) := by
  by_cases hv : job.Id = "" ∨ job.Topic = "" ∨ job.Delay < 0 ∨ job.TTR ≤ 0
  · have hp : Push F cfg w job = some (some invalidJob, w) := by simp [Push, hv]
    refine ⟨⟨fun _ => hv, fun _ => ⟨w, hp⟩⟩, ?_⟩
    intro w1 h1
    rw [hp] at h1
    simpa using h1.symm
  · have hno : ∀ w1, Push F cfg w job ≠ some (some invalidJob, w1) := by
      intro w1
      have hf : w.faults w.ops = none := hw _
      simp only [Push, hv, if_false, putJob, World.fault, hf]
      cases hb : bucket F cfg _ job.Id with
      | none => simp
      | some r =>
        obtain ⟨name, w2⟩ := r
        have hf2 : w2.faults w2.ops = none := by
          rw [(bucket_world F cfg _ _ _ _ hb).2.2.2.1]
          exact hw _
        simp [pushToBucket, World.fault, hf2]
    refine ⟨⟨fun ⟨w1, h1⟩ => absurd h1 (hno w1), fun h => absurd h hv⟩, ?_⟩
    intro w1 h1
    exact absurd h1 (hno w1)

/-- The two rejected jobs of scenario S5, on the empty store with the default settings. -/
theorem C1_push_invalid_job_witness :
    emptyWorld.reliable ∧
      Push goFmt defaultConfig emptyWorld ⟨"", "t", 0, 1, ""⟩ = some (some invalidJob, emptyWorld) ∧
      Push goFmt defaultConfig emptyWorld ⟨"e", "t", 0, 0, ""⟩ = some (some invalidJob, emptyWorld) := by
  have h1 := C1_push_invalid_job goFmt defaultConfig emptyWorld ⟨"", "t", 0, 1, ""⟩ (fun _ => rfl)
  have h2 := C1_push_invalid_job goFmt defaultConfig emptyWorld ⟨"e", "t", 0, 0, ""⟩ (fun _ => rfl)
  refine ⟨fun _ => rfl, ?_, ?_⟩
  · obtain ⟨w1, hw1⟩ := h1.1.mpr (by decide)
    rw [hw1, h1.2 w1 hw1]
  · obtain ⟨w1, hw1⟩ := h2.1.mpr (by decide)
    rw [hw1, h2.2 w1 hw1]

/-- C3: for a valid job on a store whose commands succeed (the router not panicking: in hash
mode `BucketSize` is not zero), `Push` returns no error; afterwards the job store returns exactly
that job for `job.Id`, the bucket the router named holds `job.Id` once, with score `job.Delay`,
every other bucket is as before and so are the ready queues. -/
theorem C3_push_valid_job (F : Fmt) (cfg : Config) (w : World) (job : Job)
    (hw : w.reliable) (hid : job.Id ≠ "") (htopic : job.Topic ≠ "") (hdelay : 0 ≤ job.Delay)
    (httr : 0 < job.TTR) (hsize : cfg.BucketMethod = 0 → cfg.BucketSize ≠ 0) :
    ∃ name w1 w2, bucket F cfg (putJob w job.Id job).2 job.Id = some (name, w1) ∧
      Push F cfg w job = some (none, w2) ∧
      (getJob w2 job.Id).1 = .ok (some job) ∧
      w2.buckets name = zadd (w.buckets name) job.Delay job.Id ∧
      (∀ x ∈ w2.buckets name, x.jobId = job.Id ↔ x = ⟨job.Delay, job.Id⟩) ∧
      ((w2.buckets name).filter (fun x => x.jobId = job.Id)).length = 1 ∧
      (∀ k, k ≠ name → w2.buckets k = w.buckets k) ∧
      w2.queues = w.queues := by
  have hv : ¬(job.Id = "" ∨ job.Topic = "" ∨ job.Delay < 0 ∨ job.TTR ≤ 0) := by
    simp only [not_or, not_lt, not_le]
    exact ⟨hid, htopic, hdelay, httr⟩
  have hf : w.faults w.ops = none := hw _
  have hsome : ∃ r, bucket F cfg (putJob w job.Id job).2 job.Id = some r := by
    simp only [bucket]
    split_ifs with h1 h2
    · exact ⟨_, rfl⟩
    · exact absurd h2 (hsize (by simpa using h1))
    · exact ⟨_, rfl⟩
  obtain ⟨⟨name, w1⟩, hb⟩ := hsome
  obtain ⟨hj1, hb1, hq1, hf1, -⟩ := bucket_world F cfg _ _ _ _ hb
  have hput : putJob w job.Id job = (none, { w.issued with
      jobs := fun k =>
        if k = job.Id then some ⟨job.Topic, job.Delay, job.TTR, job.Body⟩ else w.jobs k }) := by
    simp [putJob, World.fault, hf]
  rw [hput] at hb hj1 hb1 hq1 hf1
  simp only [World.issued] at hj1 hb1 hq1 hf1
  have hf2 : w1.faults w1.ops = none := by rw [hf1]; exact hw _
  refine ⟨name, w1, (pushToBucket w1 name job.Delay job.Id).2, by rw [hput]; exact hb, ?_, ?_, ?_, ?_, ?_, ?_, ?_⟩
  · simp only [Push, hv, if_false, hput, hb, pushToBucket, World.fault, hf2]
  · have hf3 : w1.faults (w1.ops + 1) = none := by rw [hf1]; exact hw _
    simp [getJob, pushToBucket, World.fault, World.issued, hf2, hf3, hj1]
  · simp [pushToBucket, World.fault, World.issued, hf2, hb1]
  · intro x hx
    simp only [pushToBucket, World.fault, hf2, World.issued, if_true, zadd, List.mem_cons,
      List.mem_filter, ne_eq, decide_not, Bool.not_eq_eq_eq_not, Bool.not_true,
      decide_eq_false_iff_not] at hx
    constructor
    · intro hxid
      rcases hx with hx | hx
      · exact hx
      · exact absurd hxid hx.2
    · intro hx2
      rw [hx2]
  · simp [pushToBucket, World.fault, World.issued, hf2, zadd, List.filter_filter]
  · intro k hk
    simp [pushToBucket, World.fault, World.issued, hf2, hk, hb1]
  · simp [pushToBucket, World.fault, World.issued, hf2, hq1]

theorem bucket_a_after_putJob :
    (bucket goFmt defaultConfig (putJob emptyWorld "a" ⟨"a", "t", 5, 60, "x"⟩).2 "a").map Prod.fst
      = some "dq_bucket_2" := by
  decide

/-- A valid job pushed on the empty store with the default settings. -/
theorem C3_push_valid_job_witness :
    ∃ w2, Push goFmt defaultConfig emptyWorld ⟨"a", "t", 5, 60, "x"⟩ = some (none, w2) ∧
      (getJob w2 "a").1 = .ok (some ⟨"a", "t", 5, 60, "x"⟩) ∧
      w2.buckets "dq_bucket_2" = [⟨5, "a"⟩] := by
  obtain ⟨name, w1, w2, hb, hp, hg, hz, -⟩ :=
    C3_push_valid_job goFmt defaultConfig emptyWorld ⟨"a", "t", 5, 60, "x"⟩ (fun _ => rfl)
      (by decide) (by decide) (by decide) (by decide) (by decide)
  have hname : name = "dq_bucket_2" := by
    have h2 := bucket_a_after_putJob
    rw [hb] at h2
    simpa using h2
  subst hname
  exact ⟨w2, hp, hg, by rw [hz]; decide⟩

/-! ## Pop -/

/-- C4, amended: let the blocking pop return `jobId` in the world `w1`.  If `jobId` is empty, `Pop`
returns no job and no error and does nothing more; when no list of the topics holds an id, the
stored data are as before the call.  If the metadata of `jobId` is absent, `Pop` returns no job
and no error and the buckets are as the blocking pop left them.  Otherwise, on a store whose
commands succeed and provided `now + job.TTR` fits a signed 64-bit integer, `Pop` returns the
stored job and the bucket the router named holds `jobId` once, with score `now + job.TTR`; every
other bucket is as before. -/
theorem C4_pop_reservation (F : Fmt) (cfg : Config) (now : Int) (w : World) (topics : List String)
    (jobId : String) (w1 : World)
    (hpop : blockPopFromReadyQueue F cfg w topics = (.ok jobId, w1)) :
    (jobId = "" → Pop F cfg now w topics = some ((none, none), w1)) ∧
      (firstReady w.queues (topics.map (F.str cfg.QueueName)) = none →
        Pop F cfg now w topics = some ((none, none), w.issued)) ∧
      (jobId ≠ "" → w1.fault = none → w1.jobs jobId = none →
        Pop F cfg now w topics = some ((none, none), w1.issued)) ∧
      (∀ m, jobId ≠ "" → w1.reliable → w1.jobs jobId = some m →
        (cfg.BucketMethod = 0 → cfg.BucketSize ≠ 0) →
        -(2 ^ 63) ≤ now + m.TTR → now + m.TTR < 2 ^ 63 →
        ∃ name w2 w3, bucket F cfg w1.issued jobId = some (name, w2) ∧
          Pop F cfg now w topics = some ((some ⟨jobId, m.Topic, m.Delay, m.TTR, m.Body⟩, none), w3) ∧
          w3.buckets name = zadd (w1.buckets name) (now + m.TTR) jobId ∧
          (∀ k, k ≠ name → w3.buckets k = w1.buckets k) ∧
          w3.jobs = w1.jobs ∧ w3.queues = w1.queues) := by
  refine ⟨?_, ?_, ?_, ?_⟩
  · intro hid
    simp [Pop, hpop, hid]
  · intro hnone
    cases hf : w.fault with
    | some e => simp [blockPopFromReadyQueue, hf] at hpop
    | none => simp [Pop, blockPopFromReadyQueue, hf, hnone]
  · intro hid hf hjob
    simp [Pop, hpop, hid, getJob, hf, hjob]
  · intro m hid hw hjob hsize h0 h1
    have hf : w1.faults w1.ops = none := hw _
    have hsome : ∃ r, bucket F cfg w1.issued jobId = some r := by
      simp only [bucket]
      split_ifs with h1 h2
      · exact ⟨_, rfl⟩
      · exact absurd h2 (hsize (by simpa using h1))
      · exact ⟨_, rfl⟩
    obtain ⟨⟨name, w2⟩, hb⟩ := hsome
    obtain ⟨hj2, hb2, hq2, hf2, -⟩ := bucket_world F cfg _ _ _ _ hb
    simp only [World.issued] at hj2 hb2 hq2 hf2
    have hf3 : w2.faults w2.ops = none := by rw [hf2]; exact hw _
    refine ⟨name, w2, (pushToBucket w2 name (now + m.TTR) jobId).2, hb, ?_, ?_, ?_, ?_, ?_⟩
    · simp [Pop, hpop, hid, getJob, hf, hjob, hb, wrapInt64_of_range _ h0 h1, pushToBucket,
        World.fault, hf3]
    · simp [pushToBucket, World.fault, World.issued, hf3, hb2]
    · intro k hk
      simp [pushToBucket, World.fault, World.issued, hf3, hk, hb2]
    · simp [pushToBucket, World.fault, World.issued, hf3, hj2]
    · simp [pushToBucket, World.fault, World.issued, hf3, hq2]

theorem bucket_a_after_blockPop :
    (bucket goFmt defaultConfig
      (blockPopFromReadyQueue goFmt defaultConfig (readyWorld 2) ["t"]).2.issued "a").map Prod.fst
      = some "dq_bucket_2" := by
  decide

/-- Scenario S2 at the clock reading 100: the job `a` with ttr 2 is reserved until 102. -/
theorem C4_pop_reservation_witness :
    ∃ w3, Pop goFmt defaultConfig 100 (readyWorld 2) ["t"]
        = some ((some ⟨"a", "t", 0, 2, "x"⟩, none), w3) ∧
      w3.buckets "dq_bucket_2" = [⟨102, "a"⟩] := by
  have hpop : blockPopFromReadyQueue goFmt defaultConfig (readyWorld 2) ["t"]
      = (.ok "a", (blockPopFromReadyQueue goFmt defaultConfig (readyWorld 2) ["t"]).2) := by
    apply Prod.ext
    · rfl
    · rfl
  obtain ⟨name, w2, w3, hb, hp, hz, -⟩ :=
    (C4_pop_reservation goFmt defaultConfig 100 (readyWorld 2) ["t"] "a" _ hpop).2.2.2
      ⟨"t", 0, 2, "x"⟩ (by decide) (fun _ => rfl) (by decide) (by decide) (by decide) (by decide)
  have hname : name = "dq_bucket_2" := by
    have h2 := bucket_a_after_blockPop
    rw [hb] at h2
    simpa using h2
  subst hname
  exact ⟨w3, hp, by rw [hz]; decide⟩

/-- C4 as stated fails: with ttr `2^63 - 1`, which `Push` accepts, the sum
`time.Now().Unix() + job.TTR` wraps; at the clock reading 1700000000 the id is inserted with the
negative score -9223372035154775809, not with `now + job.TTR`. -/
theorem C4_pop_overflow_counterexample :
    (Pop goFmt defaultConfig 1700000000 (readyWorld 9223372036854775807) ["t"]).map
        (fun r => (r.1, r.2.buckets "dq_bucket_2"))
      = some ((some ⟨"a", "t", 0, 9223372036854775807, "x"⟩, none),
          [⟨-9223372035154775809, "a"⟩]) ∧
      (-9223372035154775809 : Int) ≠ 1700000000 + 9223372036854775807 := by
  constructor
  · decide
  · decide

/-! ## Scanner -/

/-- C5: whatever the store, the faults and the tick time, the ids a tick puts on a ready queue,
after any number of passes of its loop, all have metadata in the job store; and a pass that
finds a due minimum whose metadata are absent removes that entry from the bucket, puts nothing on
any ready queue, and the loop goes on from there. -/
theorem C5_metadata_authority (F : Fmt) (cfg : Config) (t : Int) (b : String) (w : World) :
    (∀ n q, ∃ pushed, (tickLoop F cfg t b n w).2.queues q = pushed ++ w.queues q ∧
        ∀ p ∈ pushed, w.jobs p ≠ none) ∧
      (∀ x, w.faults w.ops = none → w.faults (w.ops + 1) = none → w.faults (w.ops + 2) = none →
        zmin (w.buckets b) = some x → x.timestamp ≤ t → w.jobs x.jobId = none →
        ∃ w1, tickIter F cfg t b w = (.next, w1) ∧
          w1.buckets b = zrem (w.buckets b) x.jobId ∧ (∀ y ∈ w1.buckets b, y.jobId ≠ x.jobId) ∧
          w1.queues = w.queues ∧ w1.jobs = w.jobs ∧
          ∀ n, tickLoop F cfg t b (n + 1) w = tickLoop F cfg t b n w1) := by
  constructor
  · intro n q
    obtain ⟨pushed, hq, hp⟩ := (tickLoop_from_start F cfg t b w n).queues q
    refine ⟨pushed, hq, fun p hpm => ?_⟩
    obtain ⟨-, m, hm, -⟩ := hp p hpm
    rw [hm]
    simp
  · intro x h0 h1 h2 hz hdue habs
    obtain ⟨w1, hi, hb, hq, hj, -, -⟩ := tickIter_absent F cfg t b w x h0 h1 h2 hz hdue habs
    refine ⟨w1, hi, hb, ?_, hq, hj, fun n => by simp only [tickLoop, hi]⟩
    intro y hy
    rw [hb] at hy
    simpa [zrem] using (List.mem_filter.mp hy).2

/-- The entry of the removed job `gone` is dropped from the bucket by the first pass at time 10. -/
theorem C5_metadata_authority_witness :
    ∃ w1, tickIter goFmt defaultConfig 10 "dq_bucket_1" scanWorld = (.next, w1) ∧
      w1.buckets "dq_bucket_1" = [⟨2, "late"⟩, ⟨3, "due"⟩, ⟨40, "later"⟩] ∧
      w1.queues = scanWorld.queues := by
  obtain ⟨w1, hi, hb, -, hq, -⟩ :=
    (C5_metadata_authority goFmt defaultConfig 10 "dq_bucket_1" scanWorld).2 ⟨1, "gone"⟩
      rfl rfl rfl (by decide) (by decide) (by decide)
  exact ⟨w1, hi, by rw [hb]; decide, hq⟩

/-- C6: whatever the store, the faults and the tick time `t`, after any number of passes of the
loop every ready queue has grown at its head only, and each id the tick has put on a queue had
an entry in the scanned bucket with timestamp at most `t`, has metadata with delay at most `t`,
and went onto the queue of the topic of its metadata.  Hence no id whose entry in the bucket (a
sorted set: one entry per member) has a timestamp after `t`, and no id whose metadata carry a
delay after `t`, is promoted. -/
theorem C6_delay_respected (F : Fmt) (cfg : Config) (t : Int) (b : String) (w : World)
    (n : Nat) (q : String) :
    ∃ pushed, (tickLoop F cfg t b n w).2.queues q = pushed ++ w.queues q ∧
      (tickLoop F cfg t b n w).2.jobs = w.jobs ∧
      (∀ p ∈ pushed, (∃ x ∈ w.buckets b, x.jobId = p ∧ x.timestamp ≤ t) ∧
        ∃ m, w.jobs p = some m ∧ m.Delay ≤ t ∧ q = F.str cfg.QueueName m.Topic) ∧
      (uniqueMembers (w.buckets b) → ∀ x ∈ w.buckets b, t < x.timestamp → x.jobId ∉ pushed) ∧
      (∀ p m, w.jobs p = some m → t < m.Delay → p ∉ pushed) := by
  have hinv := tickLoop_from_start F cfg t b w n
  obtain ⟨pushed, hq, hp⟩ := hinv.queues q
  refine ⟨pushed, hq, hinv.jobs, hp, ?_, ?_⟩
  · intro hu x hx hts hmem
    obtain ⟨⟨y, hy, hid, hdue⟩, -⟩ := hp _ hmem
    have hxy := eq_of_uniqueMembers _ hu y x hy hx hid
    subst hxy
    omega
  · intro p m hm hlate hmem
    obtain ⟨-, m2, hm2, hd, -⟩ := hp _ hmem
    rw [hm] at hm2
    simp only [Option.some.injEq] at hm2
    subst hm2
    omega

/-- A tick at time 10 promotes neither `later`, whose entry is due at 40, nor `late`, whose
metadata carry the delay 50; it promotes `due`. -/
theorem C6_delay_respected_witness :
    uniqueMembers (scanWorld.buckets "dq_bucket_1") ∧
      (∃ pushed, (tickLoop goFmt defaultConfig 10 "dq_bucket_1" 6 scanWorld).2.queues "dq_queue_t"
          = pushed ++ scanWorld.queues "dq_queue_t" ∧ "later" ∉ pushed ∧ "late" ∉ pushed) ∧
      (tickLoop goFmt defaultConfig 10 "dq_bucket_1" 6 scanWorld).2.queues "dq_queue_t" = ["due"] := by
  have hu : uniqueMembers (scanWorld.buckets "dq_bucket_1") := by
    unfold uniqueMembers
    decide
  obtain ⟨pushed, hq, -, -, h1, h2⟩ :=
    C6_delay_respected goFmt defaultConfig 10 "dq_bucket_1" scanWorld 6 "dq_queue_t"
  refine ⟨hu, ⟨pushed, hq, ?_, ?_⟩, by decide⟩
  · exact h1 hu ⟨40, "later"⟩ (by decide) (by decide)
  · exact h2 "late" ⟨"t", 50, 60, "x"⟩ (by decide) (by decide)

/-- C7: on a store whose commands succeed, a pass that finds a due minimum `(ts, id)` whose
metadata carry a delay after `t` puts nothing on any ready queue, removes the entry and inserts
the id again in the same bucket: the bucket then holds the id exactly once, with the delay of the
metadata as score.  And after a `Push` of an id followed by a `Push` of the same id with the
delay `D2`, a tick at a time before `D2`, on any bucket and cut off after any number of passes,
has not put the id on any ready queue. -/
theorem C7_push_overwrite (F : Fmt) (cfg : Config) (t : Int) (b : String) (w : World) :
    (∀ x m, w.faults w.ops = none → w.faults (w.ops + 1) = none → w.faults (w.ops + 2) = none →
        w.faults (w.ops + 3) = none →
        zmin (w.buckets b) = some x → x.timestamp ≤ t → w.jobs x.jobId = some m → t < m.Delay →
        ∃ w1, tickIter F cfg t b w = (.next, w1) ∧ w1.queues = w.queues ∧
          w1.buckets b = zadd (zrem (w.buckets b) x.jobId) m.Delay x.jobId ∧
          (w1.buckets b).filter (fun y => y.jobId = x.jobId) = [⟨m.Delay, x.jobId⟩]) ∧
      (∀ w0 w1 j1 j2, Push F cfg w0 j1 = some (none, w1) → Push F cfg w1 j2 = some (none, w) →
        j2.Id = j1.Id → t < j2.Delay →
        ∀ n q, ∃ pushed, (tickLoop F cfg t b n w).2.queues q = pushed ++ w.queues q ∧
          j1.Id ∉ pushed) := by
  constructor
  · intro x m h0 h1 h2 h3 hz hdue hjob hlate
    obtain ⟨w1, hi, hb, hq, -, -, -⟩ :=
      tickIter_stale F cfg t b w x m h0 h1 h2 h3 hz hdue hjob hlate
    refine ⟨w1, hi, hq, hb, ?_⟩
    rw [hb]
    simp [zadd, zrem, List.filter_filter]
  · intro w0 w1 j1 j2 _ hp2 hid hlate n q
    have hjobs := push_ok_jobs F cfg w1 w j2 hp2
    obtain ⟨pushed, hq, hp⟩ := (tickLoop_from_start F cfg t b w n).queues q
    refine ⟨pushed, hq, fun hmem => ?_⟩
    obtain ⟨-, m, hm, hd, -⟩ := hp _ hmem
    rw [← hid, hjobs] at hm
    simp only [Option.some.injEq] at hm
    subst hm
    simp only at hd
    omega

/-- Scenario S4 in round-robin mode: `d` is pushed with the delay 1, then with the delay 5; the
tick at time 2 on the first bucket moves its entry to 5 and promotes nothing. -/
theorem C7_push_overwrite_witness :
    (∃ w1, tickIter goFmt roundRobinConfig 2 "dq_bucket_1" pushedTwice = (.next, w1) ∧
        w1.queues = pushedTwice.queues ∧ w1.buckets "dq_bucket_1" = [⟨5, "d"⟩]) ∧
      (∃ pushed, (tickLoop goFmt roundRobinConfig 2 "dq_bucket_1" 5 pushedTwice).2.queues "dq_queue_t"
          = pushed ++ pushedTwice.queues "dq_queue_t" ∧ "d" ∉ pushed) := by
  have h := C7_push_overwrite goFmt roundRobinConfig 2 "dq_bucket_1" pushedTwice
  constructor
  · obtain ⟨w1, hi, hq, hb, -⟩ := h.1 ⟨1, "d"⟩ ⟨"t", 5, 60, "x"⟩ rfl rfl rfl rfl
      (by decide) (by decide) (by decide) (by decide)
    exact ⟨w1, hi, hq, by rw [hb]; decide⟩
  · exact h.2 (Init emptyWorld) pushedOnce ⟨"d", "t", 1, 60, "x"⟩ ⟨"d", "t", 5, 60, "x"⟩
      rfl rfl rfl (by decide) 5 "dq_queue_t"

/-- C9, amended: when the retrieval of the metadata of the due minimum fails, the pass removes
no entry and promotes nothing, and it ends with `continue`, not with `return`: the buckets and
the ready queues are as before, and the loop goes on with a new pass, whose first command, if it
succeeds, peeks the same minimum again. -/
theorem C9_getJob_error_continues (F : Fmt) (cfg : Config) (t : Int) (b : String) (w : World)
    (x : BucketItem) (e : String) (hpeek : w.faults w.ops = none)
    (hz : zmin (w.buckets b) = some x) (hdue : x.timestamp ≤ t)
    (hget : w.faults (w.ops + 1) = some e) :
    tickIter F cfg t b w = (.next, w.issued.issued) ∧
      w.issued.issued.buckets = w.buckets ∧ w.issued.issued.queues = w.queues ∧
      (∀ n, tickLoop F cfg t b (n + 1) w = tickLoop F cfg t b n w.issued.issued) ∧
      (w.faults (w.ops + 2) = none →
        getFromBucket w.issued.issued b = (.ok (some x), w.issued.issued.issued)) := by
  have hi := tickIter_getJob_error F cfg t b w x e hpeek hz hdue hget
  refine ⟨hi, rfl, rfl, fun n => by simp only [tickLoop, hi], ?_⟩
  intro h2
  simp [getFromBucket, World.fault, World.issued, h2, hz]

/-- The retrieval fails in the first pass over `flakyWorld`; the loop goes on. -/
theorem C9_getJob_error_continues_witness :
    tickIter goFmt defaultConfig 0 "dq_bucket_1" flakyWorld = (.next, flakyWorld.issued.issued) ∧
      (tickLoop goFmt defaultConfig 0 "dq_bucket_1" 3 flakyWorld
        = tickLoop goFmt defaultConfig 0 "dq_bucket_1" 2 flakyWorld.issued.issued) := by
  have h := C9_getJob_error_continues goFmt defaultConfig 0 "dq_bucket_1" flakyWorld ⟨0, "a"⟩ "EOF"
    rfl (by decide) (by decide) rfl
  exact ⟨h.1, h.2.2.2.1 2⟩

/-- C9 as stated fails: in `flakyWorld` the retrieval of the metadata of the due minimum `a`
returns an error, yet the tick does not stop there: it peeks again, retrieves the metadata,
promotes `a`, removes its entry, and returns after seven commands. -/
theorem C9_getJob_error_counterexample :
    zmin (flakyWorld.buckets "dq_bucket_1") = some ⟨0, "a"⟩ ∧
      (getJob (getFromBucket flakyWorld "dq_bucket_1").2 "a").1 = .error "EOF" ∧
      (tickHandler goFmt defaultConfig 3 0 "dq_bucket_1" flakyWorld).map
          (fun w => (w.buckets "dq_bucket_1", w.queues "dq_queue_t", w.ops))
        = some ([], ["a"], 7) := by
  refine ⟨by decide, rfl, by decide⟩

/-- C10: on a store whose commands succeed, the scanner loop returns within a number of passes
bounded by the number of due entries plus one; when it returns the scanned bucket is empty or
its minimum has a timestamp after `t`, so that no due entry is left; and every pass that does
not return leaves strictly fewer due entries in the bucket, on a store whose commands still
succeed. -/
theorem C10_tick_terminates (F : Fmt) (cfg : Config) (t : Int) (b : String) (w : World)
    (hw : w.reliable) :
    (∃ fuel w1, fuel = dueCount t (w.buckets b) + 1 ∧
        tickHandler F cfg fuel t b w = some w1 ∧
        (w1.buckets b = [] ∨ ∃ x, zmin (w1.buckets b) = some x ∧ t < x.timestamp) ∧
        (∀ y ∈ w1.buckets b, t < y.timestamp) ∧ dueCount t (w1.buckets b) = 0) ∧
      (∀ w1, tickIter F cfg t b w = (.next, w1) →
        w1.reliable ∧ dueCount t (w1.buckets b) < dueCount t (w.buckets b)) := by
  constructor
  · obtain ⟨w1, h1, h2⟩ := tickLoop_reliable F cfg t b (dueCount t (w.buckets b) + 1) w hw
      (Nat.lt_succ_self _)
    have hall : ∀ y ∈ w1.buckets b, t < y.timestamp := by
      intro y hy
      rcases h2 with h2 | ⟨x, hx, hts⟩
      · rw [zmin_eq_none _ h2] at hy
        exact absurd hy (List.not_mem_nil _)
      · have := zmin_le _ _ hx y hy
        omega
    refine ⟨_, w1, rfl, by simp only [tickHandler, h1], ?_, hall, ?_⟩
    · rcases h2 with h2 | h2
      · exact Or.inl (zmin_eq_none _ h2)
      · exact Or.inr h2
    · simp only [dueCount, List.length_eq_zero, List.filter_eq_nil_iff, decide_eq_true_eq, not_le]
      exact hall
  · intro w1 h1
    rcases tickIter_reliable F cfg t b w hw with ⟨h2, -⟩ | ⟨w2, h2, h3, h4⟩
    · rw [h2] at h1
      simp at h1
    · rw [h2] at h1
      simp only [Prod.mk.injEq, true_and] at h1
      subst h1
      exact ⟨h3, h4⟩

/-- The tick at time 10 over `scanWorld` returns within four passes: `gone` is dropped, `late`
moved to 50, `due` promoted, and no due entry is left. -/
theorem C10_tick_terminates_witness :
    (∃ w1, tickHandler goFmt defaultConfig 4 10 "dq_bucket_1" scanWorld = some w1 ∧
        dueCount 10 (w1.buckets "dq_bucket_1") = 0) ∧
      (tickHandler goFmt defaultConfig 4 10 "dq_bucket_1" scanWorld).map
          (fun w => (w.buckets "dq_bucket_1", w.queues "dq_queue_t"))
        = some ([⟨50, "late"⟩, ⟨40, "later"⟩], ["due"]) := by
  obtain ⟨fuel, w1, hfuel, hret, -, -, hdue⟩ :=
    (C10_tick_terminates goFmt defaultConfig 10 "dq_bucket_1" scanWorld (fun _ => rfl)).1
  have hfour : fuel = 4 := by rw [hfuel]; decide
  subst hfour
  exact ⟨⟨w1, hret, hdue⟩, by decide⟩

/-! ## Router -/

/-- C2: in hash mode with at least one bucket, `bucket` returns, whatever the state of the world
and without changing it, `BucketName` formatted with `(fnv32a(id) mod BucketSize) + 1`; the
ordinal lies between 1 and `BucketSize`, and the name is one of those `initTimers` starts a
scanner for. -/
theorem C2_bucket_hash_mode (F : Fmt) (cfg : Config) (w : World) (id : String)
    (hm : cfg.BucketMethod = 0) (hs : 1 ≤ cfg.BucketSize) :
    bucket F cfg w id = some (specBucket F cfg id, w) ∧
      (∃ n : Nat, n = fnv32a (id.toUTF8.data.toList.map UInt8.toNat) % cfg.BucketSize.toNat + 1 ∧
        1 ≤ n ∧ (n : Int) ≤ cfg.BucketSize ∧ specBucket F cfg id = F.int cfg.BucketName n) ∧
      specBucket F cfg id ∈ initTimers F cfg := by
  have hsz : ((cfg.BucketSize.toNat : Nat) : Int) = cfg.BucketSize := Int.toNat_of_nonneg (by omega)
  have hpos : 0 < cfg.BucketSize.toNat := by omega
  have hlt := Nat.mod_lt (fnv32a (id.toUTF8.data.toList.map UInt8.toNat)) hpos
  refine ⟨?_, ⟨_, rfl, by omega, by omega, rfl⟩, ?_⟩
  · have hne : cfg.BucketSize ≠ 0 := by omega
    simp only [bucket, hm, ne_eq, not_true_eq_false, if_false, hne, specBucket]
    rw [hash_ordinal _ _ (hash_lt id) hs]
    rfl
  · simp only [initTimers, specBucket, List.mem_map, List.mem_range]
    exact ⟨_, hlt, by simp⟩

/-- Scenario S6: the id `abc` with three buckets named `dq_bucket_%d` goes to `dq_bucket_3`. -/
theorem C2_bucket_hash_mode_witness :
    defaultConfig.BucketMethod = 0 ∧ 1 ≤ defaultConfig.BucketSize ∧
      fnv32a ("abc".toUTF8.data.toList.map UInt8.toNat) = 440920331 ∧
      bucket goFmt defaultConfig emptyWorld "abc" = some ("dq_bucket_3", emptyWorld) := by
  refine ⟨rfl, by decide, by decide, ?_⟩
  rw [(C2_bucket_hash_mode goFmt defaultConfig emptyWorld "abc" rfl (by decide)).1]
  have : specBucket goFmt defaultConfig "abc" = "dq_bucket_3" := by decide
  rw [this]

/-- C8: in round-robin mode with at least one bucket, the `k`-th name the generator emits is
`BucketName` formatted with `(k mod BucketSize) + 1`, an ordinal between 1 and `BucketSize`;
and successive calls of `bucket` after `Init` return these names in order, whatever ids they
are given. -/
theorem C8_round_robin (F : Fmt) (cfg : Config) (hm : cfg.BucketMethod ≠ 0)
    (hs : 1 ≤ cfg.BucketSize) :
    (∀ k : Nat, generateBucketName F cfg k = F.int cfg.BucketName ((k : Int) % cfg.BucketSize + 1) ∧
        1 ≤ (k : Int) % cfg.BucketSize + 1 ∧ (k : Int) % cfg.BucketSize + 1 ≤ cfg.BucketSize) ∧
      (∀ (w : World) (ids : List String), ∃ w1,
        bucketCalls F cfg (Init w) ids =
          some ((List.range ids.length).map
            (fun (k : Nat) => F.int cfg.BucketName ((k : Int) % cfg.BucketSize + 1)), w1)) := by
  refine ⟨fun k => ⟨?_, ?_, ?_⟩, ?_⟩
  · simp [generateBucketName, genIndex_eq cfg hs k]
  · have := Int.emod_nonneg (k : Int) (show cfg.BucketSize ≠ 0 by omega)
    omega
  · have := Int.emod_lt_of_pos (k : Int) (show 0 < cfg.BucketSize by omega)
    omega
  · intro w ids
    obtain ⟨w1, h1⟩ := bucketCalls_from F cfg hm ids (Init w) 0 (by simp [Init, genIndex])
    refine ⟨w1, ?_⟩
    rw [h1, List.range_eq_range']
    have hfun : generateBucketName F cfg
        = fun (k : Nat) => F.int cfg.BucketName ((k : Int) % cfg.BucketSize + 1) := by
      funext k
      simp only [generateBucketName, genIndex_eq cfg hs k]
    rw [hfun]

/-- Five calls with three buckets in round-robin mode return the ordinals 1, 2, 3, 1, 2. -/
theorem C8_round_robin_witness :
    ∃ w1, bucketCalls goFmt { defaultConfig with BucketMethod := 1 } (Init emptyWorld)
        ["x", "x", "y", "", "z"]
      = some (["dq_bucket_1", "dq_bucket_2", "dq_bucket_3", "dq_bucket_1", "dq_bucket_2"], w1) := by
  obtain ⟨w1, h1⟩ := (C8_round_robin goFmt { defaultConfig with BucketMethod := 1 }
    (by decide) (by decide)).2 emptyWorld ["x", "x", "y", "", "z"]
  refine ⟨w1, ?_⟩
  have hnames : (List.range ["x", "x", "y", "", "z"].length).map
      (fun (k : Nat) => goFmt.int ({ defaultConfig with BucketMethod := 1 } : Config).BucketName
        ((k : Int) % ({ defaultConfig with BucketMethod := 1 } : Config).BucketSize + 1))
      = ["dq_bucket_1", "dq_bucket_2", "dq_bucket_3", "dq_bucket_1", "dq_bucket_2"] := by decide
  rw [h1, hnames]

end DelayQueue
